import Mathlib

/-!
Verification of the layout parser (`snap7/util/__init__.py`,
`parse_specification`) and the demo data-block initializer
(`snap7/server/__init__.py`, `_init_standard_values`) of python-snap7.

Strings are embedded as `List Char`; a Python `bytearray` is a `List Nat`
of byte values.  Python's `str.split`, `str.lstrip`, `OrderedDict`
assignment and bytearray slice assignment are embedded directly from
their documented semantics; `parse_specification` and
`_init_standard_values` are line-by-line translations of the source.
-/

namespace Snap7

/-- Conversion of a Lean string literal to the character-list embedding. -/
def chars (x : String) : List Char := x.data

/-- Embeds Python's notion of whitespace for `str.lstrip()` / `str.split()`
over the ASCII range: space, tab, newline, carriage return, vertical tab,
form feed. -/
def pyIsSpace (c : Char) : Bool :=
  c == ' ' || c == '\t' || c == '\n' || c == '\r' || c == '\x0b' || c == '\x0c'

/-- Embeds `line.lstrip()`: drop leading whitespace. -/
def lstrip (l : List Char) : List Char := l.dropWhile pyIsSpace

/-- Embeds `line.lstrip().startswith("#")`: the first character after
leading whitespace is `'#'`. -/
def isCommentLine (l : List Char) : Bool :=
  (lstrip l).head? == some '#'

/-- Embeds `s.split("#")[0]`: the text before the first `'#'`. -/
def beforeHash (l : List Char) : List Char := l.takeWhile (fun c => c != '#')

/-- Embeds `s.split("\n")`: split at every newline, keeping empty pieces. -/
def splitNl : List Char → List (List Char)
  | [] => [[]]
  | c :: cs =>
    if c = '\n' then [] :: splitNl cs
    else
      match splitNl cs with
      | [] => [[c]]
      | r :: rs => (c :: r) :: rs

/-- Accumulator-passing core of `str.split()` (whitespace words);
`w` is the current word, reversed. -/
def pySplitAux : List Char → List Char → List (List Char)
  | [], w => if w = [] then [] else [w.reverse]
  | c :: cs, w =>
    if pyIsSpace c then
      if w = [] then pySplitAux cs [] else w.reverse :: pySplitAux cs []
    else pySplitAux cs (c :: w)

/-- Embeds `s.split()`: words separated by runs of whitespace, no empties. -/
def pySplit (l : List Char) : List (List Char) := pySplitAux l []

/-- Embeds `line.lstrip().split("#")[0].split()` from `parse_specification`. -/
def lineTokens (line : List Char) : List (List Char) :=
  pySplit (beforeHash (lstrip line))

/-- Embeds the loop guard `if line and not line.lstrip().startswith("#")`. -/
def keepLine (line : List Char) : Bool :=
  !line.isEmpty && !isCommentLine line

/-- The Python `ValueError` raised by unpacking `index, var_name, _type = toks`
when `toks` does not have exactly three elements. -/
inductive ParseError where
  | notEnoughValues (expected got : Nat)
  | tooManyValues (expected : Nat)
  deriving DecidableEq

/-- A parsed field: the raw `(index, _type)` token pair stored by the parser. -/
abbrev FieldSpec := List Char × List Char

/-- The `OrderedDict` built by `parse_specification`, as an ordered
association list from variable name to `(index, _type)`. -/
abbrev Layout := List (List Char × FieldSpec)

/-- Embeds `parsed_db_specification[var_name] = (index, _type)` on an
`OrderedDict`: an existing key keeps its position and gets the new value,
a new key is appended at the end. -/
def odUpdate (m : Layout) (k : List Char) (v : FieldSpec) : Layout :=
  if m.any (fun e => e.1 == k) then
    m.map (fun e => if e.1 == k then (e.1, v) else e)
  else m ++ [(k, v)]

/-- One iteration of the loop body of `parse_specification` on one line. -/
def processLine (acc : Layout) (line : List Char) : Except ParseError Layout :=
  if keepLine line then
    match lineTokens line with
    | [index, varName, ty] => .ok (odUpdate acc varName (index, ty))
    | toks =>
      if toks.length < 3 then .error (.notEnoughValues 3 toks.length)
      else .error (.tooManyValues 3)
  else .ok acc

/-- The loop of `parse_specification` over the split lines, with Python
exception propagation: the first failing line aborts the whole parse. -/
def parseLines (acc : Layout) : List (List Char) → Except ParseError Layout
  | [] => .ok acc
  | line :: rest =>
    match processLine acc line with
    | .ok acc2 => parseLines acc2 rest
    | .error e => .error e

/-- Embeds `parse_specification` from `snap7/util/__init__.py`. -/
def parse_specification (text : List Char) : Except ParseError Layout :=
  parseLines [] (splitNl text)

/-- Whether an `Except` result is a successful return. -/
def exceptIsOk : Except ParseError Layout → Bool
  | .ok _ => true
  | .error _ => false

/-- The field entry a single line contributes, if any: `none` for skipped
(empty or comment) lines and for lines whose token count is not 3. -/
def entryOfLine (line : List Char) : Option (List Char × FieldSpec) :=
  if keepLine line then
    match lineTokens line with
    | [index, varName, ty] => some (varName, (index, ty))
    | _ => none
  else none

/-- The field entries of a layout text, in line order. -/
def entriesOf (text : List Char) : Layout :=
  (splitNl text).filterMap entryOfLine

/-- A layout text is well formed when every kept (non-blank, non-comment)
line tokenizes to exactly three tokens before the first `'#'`. -/
def wellFormed (text : List Char) : Prop :=
  ∀ line ∈ splitNl text, keepLine line = true → (lineTokens line).length = 3

instance (text : List Char) : Decidable (wellFormed text) := by
  unfold wellFormed; infer_instance

/-- The key (variable-name) column of a layout, in order. -/
def keysOf (m : Layout) : List (List Char) := m.map Prod.fst

/-- First-match association lookup. -/
def lookupA : Layout → List Char → Option FieldSpec
  | [], _ => none
  | e :: m, k => if e.1 = k then some e.2 else lookupA m k

/-- The value of the LAST entry for a key, `none` if the key is absent. -/
def lastVal (es : Layout) (k : List Char) : Option FieldSpec :=
  lookupA es.reverse k

/-- Repeated `OrderedDict` assignment of a list of entries. -/
def odFold (acc : Layout) (es : Layout) : Layout :=
  es.foldl (fun m e => odUpdate m e.1 e.2) acc

/-- Inserting a key at the end unless it is already present. -/
def insertNew (a : List (List Char)) (k : List Char) : List (List Char) :=
  if k ∈ a then a else a ++ [k]

/-- Deduplication keeping the first occurrence of each key, in order. -/
def dedupKeepFirst (l : List (List Char)) : List (List Char) :=
  l.foldl insertNew []

/-- Left-biased choice on optional field specs. -/
def oOr (a b : Option FieldSpec) : Option FieldSpec :=
  match a with
  | some x => some x
  | none => b

/-- Joining lines with newlines (the inverse of `splitNl` on newline-free
lines), used to build layout texts from field triples. -/
def joinNl : List (List Char) → List Char
  | [] => []
  | [l] => l
  | l :: ls => l ++ '\n' :: joinNl ls

/-- A usable name or type token: nonempty, no whitespace, no `'#'`. -/
def goodToken (t : List Char) : Prop :=
  t ≠ [] ∧ ∀ c ∈ t, pyIsSpace c = false ∧ c ≠ '#'

instance (t : List Char) : Decidable (goodToken t) := by
  unfold goodToken; infer_instance

/-- A numeric offset token: nonempty and all decimal digits. -/
def digitToken (t : List Char) : Prop :=
  t ≠ [] ∧ ∀ c ∈ t, c.isDigit = true

instance (t : List Char) : Decidable (digitToken t) := by
  unfold digitToken; infer_instance

/-- The layout line `<offset> <name> <type>` of one field triple. -/
def renderLine (f : List Char × List Char × List Char) : List Char :=
  f.1 ++ ' ' :: (f.2.1 ++ ' ' :: f.2.2)

/-- The layout text declaring a list of field triples, one per line. -/
def renderText (fs : List (List Char × List Char × List Char)) : List Char :=
  joinNl (fs.map renderLine)

instance : DecidableEq (Except ParseError Layout) := fun a b =>
  match a, b with
  | .ok x, .ok y => decidable_of_iff (x = y) (by simp)
  | .error x, .error y => decidable_of_iff (x = y) (by simp)
  | .ok _, .error _ => isFalse (by simp)
  | .error _, .ok _ => isFalse (by simp)

/-! ### The DataType enumeration and token interpretation

`parse_specification` stores the raw offset and type tokens; they are
interpreted when a `DB_Row` accesses a field.  That interpretation lives in
`snap7/util/db.py`, which is not among the sources, so it is modelled from
the specification. -/

/-- The closed DataType enumeration of the specification (section 3). -/
inductive DataType where
  | Bool | Byte | Char | WChar
  | Int8 | UInt8 | Int16 | UInt16 | Int32 | UInt32
  | Real32 | Real64
  | String (len : Nat) | WString (len : Nat)
  | S5Time | Time | Date | TimeOfDay | DateTimeLong
  | FixedBytes (n : Nat)
  deriving DecidableEq

/-- Value of a decimal digit character. -/
def digitVal (c : Char) : Nat := c.toNat - '0'.toNat

/-- Decimal reading of an all-digit token. -/
def parseDigits (l : List Char) : Option Nat :=
  if l ≠ [] ∧ l.all Char.isDigit then
    some (l.foldl (fun a c => 10 * a + digitVal c) 0)
  else none

/-- Modelled from the spec: the offset token of a layout line is either an
integer byte offset (`"13"`) or a `byte.bit` pair (`"12.3"`); the bit part
is present only for booleans.  The reading of the stored token belongs to
`snap7/util/db.py`, which is absent from the sources. -/
def interpretOffsetToken (tok : List Char) : Option (Nat × Option Nat) :=
  match tok.splitOn '.' with
  | [b] => (parseDigits b).map (fun n => (n, none))
  | [b, bit] =>
    match parseDigits b, parseDigits bit with
    | some n, some m => some (n, some m)
    | _, _ => none
  | _ => none

/-- Modelled from the spec: type tokens map case-insensitively onto the
DataType enumeration, a bracketed length (`STRING[6]`) giving the declared
capacity.  The spec exhibits the tokens INT, BOOL, REAL, WORD, DWORD and
STRING[n]; the full token table belongs to `snap7/util/db.py`, which is
absent from the sources. -/
def interpretTypeToken (tok : List Char) : Option DataType :=
  let up := tok.map Char.toUpper
  if up = ("BOOL").data then some .Bool
  else if up = ("INT").data then some .Int16
  else if up = ("WORD").data then some .UInt16
  else if up = ("DWORD").data then some .UInt32
  else if up = ("REAL").data then some .Real32
  else if up.take 7 = ("STRING[").data ∧ up.getLast? = some ']' then
    (parseDigits ((up.drop 7).dropLast)).map DataType.String
  else none

/-! ### Embedding of `_init_standard_values` (snap7/server/__init__.py)

A `bytearray` is a `List Nat` of byte values.  `struct.pack` results are
inlined as their concrete big-endian bytes (two's complement for signed
integers, IEEE-754 single precision for the `">f"` packs). -/

/-- Embeds Python bytearray slice assignment `ba[a:b] = v`: the elements of
positions `a ≤ i < b` are removed and `v` is spliced in their place (the
buffer may grow or shrink). -/
def setSlice (l : List Nat) (start stop : Nat) (v : List Nat) : List Nat :=
  l.take start ++ v ++ l.drop (max start stop)

/-- Embeds Python bytearray item assignment `ba[i] = v`. -/
def setByte (l : List Nat) (i v : Nat) : List Nat := l.set i v

/-- The demo string written at byte 100 (37 characters). -/
def standardString : String := "the brown fox jumps over the lazy dog"

/-- Embeds `_init_standard_values` from `snap7/server/__init__.py`. -/
def _init_standard_values : List Nat :=
  let ba := List.replicate 1000 0
  let ba := setByte ba 0 0b10101010
  let ba := setSlice ba 10 11 [0x80]  -- struct.pack(">b", -128)
  let ba := setSlice ba 11 12 [0x00]  -- struct.pack(">b", 0)
  let ba := setSlice ba 12 13 [0x64]  -- struct.pack(">b", 100)
  let ba := setSlice ba 13 14 [0x7F]  -- struct.pack(">b", 127)
  let ba := setSlice ba 20 21 [0x00]  -- struct.pack("B", 0)
  let ba := setSlice ba 21 22 [0xFF]  -- struct.pack("B", 255)
  let ba := setSlice ba 30 32 [0x80, 0x00]  -- struct.pack(">h", -32768)
  let ba := setSlice ba 32 34 [0xFB, 0x2E]  -- struct.pack(">h", -1234)
  let ba := setSlice ba 34 36 [0x00, 0x00]  -- struct.pack(">h", 0)
  let ba := setSlice ba 36 38 [0x04, 0xD2]  -- struct.pack(">h", 1234)
  let ba := setSlice ba 38 40 [0x7F, 0xFF]  -- struct.pack(">h", 32767)
  let ba := setSlice ba 40 44 [0x80, 0x00, 0x00, 0x00]  -- pack(">i", -2147483648)
  let ba := setSlice ba 44 48 [0xFF, 0xFF, 0x80, 0x00]  -- pack(">i", -32768)
  let ba := setSlice ba 48 52 [0x00, 0x00, 0x00, 0x00]  -- pack(">i", 0)
  let ba := setSlice ba 52 56 [0x00, 0x00, 0x7F, 0xFF]  -- pack(">i", 32767)
  let ba := setSlice ba 56 60 [0x7F, 0xFF, 0xFF, 0xFF]  -- pack(">i", 2147483647)
  let ba := setSlice ba 60 64 [0xFF, 0x7F, 0xFF, 0xFD]  -- pack(">f", -3.402823e38)
  let ba := setSlice ba 64 68 [0xD4, 0x46, 0x12, 0x04]  -- pack(">f", -3.402823e12)
  let ba := setSlice ba 68 72 [0x8E, 0x0E, 0x60, 0xC0]  -- pack(">f", -175494351e-38)
  let ba := setSlice ba 72 76 [0xAB, 0xA5, 0x6F, 0xA6]  -- pack(">f", -1.175494351e-12)
  let ba := setSlice ba 76 80 [0x00, 0x00, 0x00, 0x00]  -- pack(">f", 0.0)
  let ba := setSlice ba 80 84 [0x00, 0x80, 0x00, 0x00]  -- pack(">f", 1.175494351e-38)
  let ba := setSlice ba 84 88 [0x2B, 0xA5, 0x6F, 0xA6]  -- pack(">f", 1.175494351e-12)
  let ba := setSlice ba 88 92 [0x54, 0x46, 0x12, 0x05]  -- pack(">f", 3.402823466e12)
  let ba := setSlice ba 92 96 [0x7F, 0x7F, 0xFF, 0xFF]  -- pack(">f", 3.402823466e38)
  let ba := setByte ba 100 254
  let ba := setByte ba 101 standardString.length
  let ba := (standardString.data.zip (List.range' 102 (standardString.length + 1))).foldl
    (fun b p => setByte b p.2 p.1.toNat) ba
  let ba := setSlice ba 400 404 [0x00, 0x00]
  let ba := setSlice ba 404 408 [0x12, 0x34]
  let ba := setSlice ba 408 412 [0xAB, 0xCD]
  let ba := setSlice ba 412 416 [0xFF, 0xFF]
  let ba := setSlice ba 500 508 [0x00, 0x00, 0x00, 0x00]
  let ba := setSlice ba 508 516 [0x12, 0x34, 0x56, 0x78]
  let ba := setSlice ba 516 524 [0x12, 0x34, 0xAB, 0xCD]
  let ba := setSlice ba 524 532 [0xFF, 0xFF, 0xFF, 0xFF]
  ba

/-! ## Helper lemmas about the parser loop -/

theorem processLine_skip (acc : Layout) (line : List Char)
    (h : keepLine line = false) : processLine acc line = .ok acc := by
  simp [processLine, h]

theorem processLine_three (acc : Layout) (line i n t : List Char)
    (hk : keepLine line = true) (ht : lineTokens line = [i, n, t]) :
    processLine acc line = .ok (odUpdate acc n (i, t)) := by
  simp [processLine, hk, ht]

theorem processLine_err (acc : Layout) (line : List Char)
    (hk : keepLine line = true) (h3 : (lineTokens line).length ≠ 3) :
    ∃ e, processLine acc line = .error e := by
  rcases htoks : lineTokens line with _ | ⟨a, _ | ⟨b, _ | ⟨c, _ | ⟨d, tl⟩⟩⟩⟩
  · exact ⟨.notEnoughValues 3 0, by simp [processLine, hk, htoks]⟩
  · exact ⟨.notEnoughValues 3 1, by simp [processLine, hk, htoks]⟩
  · exact ⟨.notEnoughValues 3 2, by simp [processLine, hk, htoks]⟩
  · rw [htoks] at h3; simp at h3
  · exact ⟨.tooManyValues 3, by simp [processLine, hk, htoks]⟩

theorem parseLines_ok (lines : List (List Char)) : ∀ acc : Layout,
    (∀ l ∈ lines, keepLine l = true → (lineTokens l).length = 3) →
    parseLines acc lines = .ok (odFold acc (lines.filterMap entryOfLine)) := by
  induction lines with
  | nil => intro acc _; rfl
  | cons line rest ih =>
    intro acc h
    cases hk : keepLine line with
    | false =>
      have hent : entryOfLine line = none := by simp [entryOfLine, hk]
      have hstep : parseLines acc (line :: rest) = parseLines acc rest := by
        simp [parseLines, processLine_skip acc line hk]
      rw [hstep, ih acc (fun l hl hkl => h l (List.mem_cons_of_mem _ hl) hkl)]
      simp [hent]
    | true =>
      have h3 := h line (List.mem_cons_self _ _) hk
      rcases htoks : lineTokens line with _ | ⟨i, _ | ⟨n, _ | ⟨t, _ | ⟨d, tl⟩⟩⟩⟩ <;>
        rw [htoks] at h3 <;> try simp at h3
      have hstep : parseLines acc (line :: rest) =
          parseLines (odUpdate acc n (i, t)) rest := by
        simp [parseLines, processLine_three acc line i n t hk htoks]
      have hent : entryOfLine line = some (n, (i, t)) := by
        simp [entryOfLine, hk, htoks]
      rw [hstep, ih _ (fun l hl hkl => h l (List.mem_cons_of_mem _ hl) hkl)]
      simp [hent, odFold]

theorem parseLines_err (lines : List (List Char)) : ∀ acc : Layout,
    (∃ l ∈ lines, keepLine l = true ∧ (lineTokens l).length ≠ 3) →
    exceptIsOk (parseLines acc lines) = false := by
  induction lines with
  | nil =>
    rintro acc ⟨l, hl, -⟩
    exact absurd hl (List.not_mem_nil l)
  | cons line rest ih =>
    rintro acc ⟨l, hl, hk, h3⟩
    rcases List.mem_cons.mp hl with rfl | hl'
    · obtain ⟨e, he⟩ := processLine_err acc l hk h3
      simp [parseLines, he, exceptIsOk]
    · cases hp : processLine acc line with
      | ok acc2 =>
        have hr := ih acc2 ⟨l, hl', hk, h3⟩
        simp [parseLines, hp, hr]
      | error e => simp [parseLines, hp, exceptIsOk]

theorem parseLines_filter (lines : List (List Char)) : ∀ acc : Layout,
    parseLines acc lines = parseLines acc (lines.filter keepLine) := by
  induction lines with
  | nil => intro acc; rfl
  | cons line rest ih =>
    intro acc
    cases hk : keepLine line with
    | false =>
      rw [List.filter_cons_of_neg (by simp [hk])]
      have hstep : parseLines acc (line :: rest) = parseLines acc rest := by
        simp [parseLines, processLine_skip acc line hk]
      rw [hstep, ih]
    | true =>
      rw [List.filter_cons_of_pos (by simp [hk])]
      cases hp : processLine acc line with
      | ok acc2 =>
        have h1 : parseLines acc (line :: rest) = parseLines acc2 rest := by
          simp [parseLines, hp]
        have h2 : parseLines acc (line :: rest.filter keepLine) =
            parseLines acc2 (rest.filter keepLine) := by
          simp [parseLines, hp]
        rw [h1, h2, ih]
      | error e =>
        have h1 : parseLines acc (line :: rest) = .error e := by
          simp [parseLines, hp]
        have h2 : parseLines acc (line :: rest.filter keepLine) = .error e := by
          simp [parseLines, hp]
        rw [h1, h2]

/-! ## Helper lemmas about OrderedDict assignment -/

theorem keysOf_odUpdate (m : Layout) (k : List Char) (v : FieldSpec) :
    keysOf (odUpdate m k v) = insertNew (keysOf m) k := by
  unfold odUpdate insertNew
  by_cases h : m.any (fun e => e.1 == k) = true
  · rw [if_pos h, if_pos ?mem]
    case mem =>
      rcases List.any_eq_true.mp h with ⟨e, he, hek⟩
      exact List.mem_map.mpr ⟨e, he, beq_iff_eq.mp hek⟩
    unfold keysOf
    rw [List.map_map]
    congr 1
    funext e
    by_cases he : e.1 = k <;> simp [he]
  · rw [if_neg h, if_neg ?nmem]
    case nmem =>
      intro hmem
      rcases List.mem_map.mp hmem with ⟨e, he, hek⟩
      exact h (List.any_eq_true.mpr ⟨e, he, beq_iff_eq.mpr hek⟩)
    simp [keysOf]

theorem oOr_assoc (a b c : Option FieldSpec) :
    oOr (oOr a b) c = oOr a (oOr b c) := by
  cases a <;> rfl

theorem oOr_none_right (a : Option FieldSpec) : oOr a none = a := by
  cases a <;> rfl

theorem lookupA_append (a b : Layout) (n : List Char) :
    lookupA (a ++ b) n = oOr (lookupA a n) (lookupA b n) := by
  induction a with
  | nil => rfl
  | cons e a ih =>
    by_cases h : e.1 = n <;> simp [lookupA, h, ih, oOr]

theorem lookupA_eq_none (m : Layout) (k : List Char)
    (h : m.any (fun e => e.1 == k) = false) : lookupA m k = none := by
  induction m with
  | nil => rfl
  | cons e m ih =>
    rw [List.any_cons, Bool.or_eq_false_iff] at h
    have hek : e.1 ≠ k := by simpa using h.1
    simp [lookupA, hek, ih h.2]

theorem lookupA_map_subst (k : List Char) (v : FieldSpec) (n : List Char)
    (hn : n ≠ k) (m : Layout) :
    lookupA (m.map fun e => if e.1 == k then (e.1, v) else e) n = lookupA m n := by
  induction m with
  | nil => rfl
  | cons e m ih =>
    simp only [List.map_cons]
    by_cases hek : e.1 = k
    · rw [if_pos (beq_iff_eq.mpr hek)]
      have h2 : e.1 ≠ n := fun hc => hn (hek ▸ hc).symm
      simp only [lookupA]
      rw [if_neg h2, if_neg h2]
      exact ih
    · rw [if_neg (fun hc => hek (beq_iff_eq.mp hc))]
      simp only [lookupA]
      by_cases hen : e.1 = n
      · rw [if_pos hen, if_pos hen]
      · rw [if_neg hen, if_neg hen]
        exact ih

theorem lookupA_map_subst_self (k : List Char) (v : FieldSpec) (m : Layout)
    (hany : m.any (fun e => e.1 == k) = true) :
    lookupA (m.map fun e => if e.1 == k then (e.1, v) else e) k = some v := by
  induction m with
  | nil => simp at hany
  | cons e m ih =>
    simp only [List.map_cons]
    by_cases hek : e.1 = k
    · rw [if_pos (beq_iff_eq.mpr hek)]
      simp only [lookupA]
      rw [if_pos hek]
    · rw [List.any_cons, Bool.or_eq_true_iff] at hany
      have h2 : m.any (fun e => e.1 == k) = true := by
        rcases hany with h | h
        · exact absurd (beq_iff_eq.mp h) hek
        · exact h
      rw [if_neg (fun hc => hek (beq_iff_eq.mp hc))]
      simp only [lookupA]
      rw [if_neg hek]
      exact ih h2

theorem lookupA_odUpdate (m : Layout) (k : List Char) (v : FieldSpec) (n : List Char) :
    lookupA (odUpdate m k v) n = if k = n then some v else lookupA m n := by
  unfold odUpdate
  by_cases hany : m.any (fun e => e.1 == k) = true
  · rw [if_pos hany]
    by_cases hkn : k = n
    · subst hkn
      rw [if_pos rfl]
      exact lookupA_map_subst_self k v m hany
    · rw [if_neg hkn, lookupA_map_subst k v n (fun hc => hkn hc.symm)]
  · rw [if_neg hany, lookupA_append]
    by_cases hkn : k = n
    · subst hkn
      rw [lookupA_eq_none m k (Bool.eq_false_iff.mpr hany), if_pos rfl]
      simp [lookupA, oOr]
    · have h1 : lookupA [(k, v)] n = none := by simp [lookupA, hkn]
      rw [h1, oOr_none_right, if_neg hkn]

theorem odFold_cons (acc : Layout) (e : List Char × FieldSpec) (es : Layout) :
    odFold acc (e :: es) = odFold (odUpdate acc e.1 e.2) es := rfl

theorem keysOf_odFold (es : Layout) : ∀ acc : Layout,
    keysOf (odFold acc es) = (keysOf es).foldl insertNew (keysOf acc) := by
  induction es with
  | nil => intro acc; rfl
  | cons e es ih =>
    intro acc
    rw [odFold_cons, ih, keysOf_odUpdate]
    rfl

theorem lookupA_odFold (es : Layout) : ∀ (acc : Layout) (n : List Char),
    lookupA (odFold acc es) n = oOr (lastVal es n) (lookupA acc n) := by
  induction es with
  | nil => intro acc n; rfl
  | cons e es ih =>
    intro acc n
    rw [odFold_cons, ih]
    have h1 : lookupA (odUpdate acc e.1 e.2) n = oOr (lookupA [e] n) (lookupA acc n) := by
      rw [lookupA_odUpdate]
      by_cases h : e.1 = n <;> simp [lookupA, h, oOr]
    rw [h1, ← oOr_assoc]
    have h2 : lastVal (e :: es) n = oOr (lastVal es n) (lookupA [e] n) := by
      unfold lastVal
      rw [List.reverse_cons, lookupA_append]
    rw [h2]

theorem odFold_fresh (es : Layout) : ∀ acc : Layout, (keysOf es).Nodup →
    (∀ k ∈ keysOf es, k ∉ keysOf acc) → odFold acc es = acc ++ es := by
  induction es with
  | nil => intro acc _ _; simp [odFold]
  | cons e es ih =>
    intro acc hnd hfr
    have hnotin : e.1 ∉ keysOf acc := hfr e.1 (by simp [keysOf])
    have hupd : odUpdate acc e.1 e.2 = acc ++ [e] := by
      unfold odUpdate
      rw [if_neg ?hyp]
      case hyp =>
        intro hany
        rcases List.any_eq_true.mp hany with ⟨x, hx, hxk⟩
        exact hnotin (List.mem_map.mpr ⟨x, hx, beq_iff_eq.mp hxk⟩)
    have hnd' : (keysOf es).Nodup := by
      have : (e.1 :: keysOf es).Nodup := hnd
      exact (List.nodup_cons.mp this).2
    have hhd : e.1 ∉ keysOf es := by
      have : (e.1 :: keysOf es).Nodup := hnd
      exact (List.nodup_cons.mp this).1
    rw [odFold_cons, hupd, ih (acc ++ [e]) hnd' ?fr]
    · rw [List.append_assoc]
      rfl
    case fr =>
      intro k hk
      have hne : k ≠ e.1 := fun hc => hhd (hc ▸ hk)
      have hka : k ∉ keysOf acc := hfr k (List.mem_cons_of_mem _ hk)
      unfold keysOf
      rw [List.map_append]
      intro hmem
      rcases List.mem_append.mp hmem with h | h
      · exact hka h
      · simp at h
        exact hne h

theorem foldl_insertNew_nodup (l : List (List Char)) : ∀ a : List (List Char),
    a.Nodup → (l.foldl insertNew a).Nodup := by
  induction l with
  | nil => intro a h; exact h
  | cons k l ih =>
    intro a h
    apply ih
    unfold insertNew
    by_cases hk : k ∈ a
    · rwa [if_pos hk]
    · rw [if_neg hk]
      rw [List.nodup_append]
      exact ⟨h, List.nodup_singleton k, by simp [List.Disjoint]; intro x hx hc; exact hk (hc ▸ hx)⟩

/-! ## Helper lemmas about the string primitives -/

theorem mem_of_mem_dropWhile (p : Char → Bool) (l : List Char) (c : Char)
    (h : c ∈ l.dropWhile p) : c ∈ l := by
  induction l with
  | nil => simp [List.dropWhile] at h
  | cons x l ih =>
    rw [List.dropWhile_cons] at h
    by_cases hp : p x = true
    · rw [if_pos hp] at h
      exact List.mem_cons_of_mem _ (ih h)
    · rw [if_neg hp] at h
      exact h

theorem dropWhile_append_ne_nil (p : Char → Bool) (a b : List Char)
    (h : a.dropWhile p ≠ []) : (a ++ b).dropWhile p = a.dropWhile p ++ b := by
  induction a with
  | nil => exact absurd rfl h
  | cons x a ih =>
    rw [List.cons_append, List.dropWhile_cons, List.dropWhile_cons]
    by_cases hp : p x = true
    · rw [if_pos hp, if_pos hp]
      rw [List.dropWhile_cons, if_pos hp] at h
      exact ih h
    · rw [if_neg hp, if_neg hp, List.cons_append]

theorem takeWhile_all (p : Char → Bool) (a : List Char)
    (h : ∀ c ∈ a, p c = true) : a.takeWhile p = a := by
  induction a with
  | nil => rfl
  | cons x a ih =>
    rw [List.takeWhile_cons, if_pos (h x (List.mem_cons_self _ _))]
    rw [ih (fun c hc => h c (List.mem_cons_of_mem _ hc))]

theorem takeWhile_append_stop (p : Char → Bool) (a : List Char) (x : Char) (b : List Char)
    (ha : ∀ c ∈ a, p c = true) (hx : p x = false) :
    (a ++ x :: b).takeWhile p = a := by
  induction a with
  | nil => simpa [List.takeWhile_cons] using hx
  | cons y a ih =>
    rw [List.cons_append, List.takeWhile_cons, if_pos (ha y (List.mem_cons_self _ _))]
    rw [ih (fun c hc => ha c (List.mem_cons_of_mem _ hc))]

theorem splitNl_ne_nil (l : List Char) : splitNl l ≠ [] := by
  induction l with
  | nil => simp [splitNl]
  | cons c cs ih =>
    rw [splitNl]
    by_cases h : c = '\n'
    · simp [h]
    · rw [if_neg h]
      cases hs : splitNl cs with
      | nil => exact absurd hs ih
      | cons r rs => simp

theorem splitNl_no_nl (l : List Char) (h : '\n' ∉ l) : splitNl l = [l] := by
  induction l with
  | nil => rfl
  | cons c cs ih =>
    have hc : c ≠ '\n' := fun hc => h (hc ▸ List.mem_cons_self _ _)
    have hcs : '\n' ∉ cs := fun hm => h (List.mem_cons_of_mem _ hm)
    rw [splitNl, if_neg hc, ih hcs]

theorem splitNl_append_nl (l r : List Char) (h : '\n' ∉ l) :
    splitNl (l ++ '\n' :: r) = l :: splitNl r := by
  induction l with
  | nil => simp [splitNl]
  | cons c cs ih =>
    have hc : c ≠ '\n' := fun hc => h (hc ▸ List.mem_cons_self _ _)
    have hcs : '\n' ∉ cs := fun hm => h (List.mem_cons_of_mem _ hm)
    rw [List.cons_append, splitNl, if_neg hc, ih hcs]

theorem splitNl_joinNl (ls : List (List Char)) (hne : ls ≠ [])
    (h : ∀ l ∈ ls, '\n' ∉ l) : splitNl (joinNl ls) = ls := by
  induction ls with
  | nil => exact absurd rfl hne
  | cons l ls ih =>
    cases ls with
    | nil => exact splitNl_no_nl l (h l (List.mem_cons_self _ _))
    | cons l2 ls2 =>
      rw [show joinNl (l :: l2 :: ls2) = l ++ '\n' :: joinNl (l2 :: ls2) from rfl]
      rw [splitNl_append_nl l _ (h l (List.mem_cons_self _ _))]
      rw [ih (by simp) (fun x hx => h x (List.mem_cons_of_mem _ hx))]

theorem pySplitAux_nonspace (a : List Char) : ∀ (rest w : List Char),
    (∀ c ∈ a, pyIsSpace c = false) →
    pySplitAux (a ++ rest) w = pySplitAux rest (a.reverse ++ w) := by
  induction a with
  | nil => intro rest w _; rfl
  | cons x a ih =>
    intro rest w h
    have hx : pyIsSpace x = false := h x (List.mem_cons_self _ _)
    rw [List.cons_append, pySplitAux, if_neg (by simp [hx])]
    rw [ih rest (x :: w) (fun c hc => h c (List.mem_cons_of_mem _ hc))]
    rw [List.reverse_cons, List.append_assoc]
    rfl

theorem pySplit_three (a b c : List Char)
    (ha : a ≠ []) (has : ∀ x ∈ a, pyIsSpace x = false)
    (hb : b ≠ []) (hbs : ∀ x ∈ b, pyIsSpace x = false)
    (hc : c ≠ []) (hcs : ∀ x ∈ c, pyIsSpace x = false) :
    pySplit (a ++ ' ' :: (b ++ ' ' :: c)) = [a, b, c] := by
  unfold pySplit
  rw [pySplitAux_nonspace a _ [] has, List.append_nil]
  rw [show pySplitAux (' ' :: (b ++ ' ' :: c)) a.reverse =
      if a.reverse = [] then pySplitAux (b ++ ' ' :: c) []
      else a.reverse.reverse :: pySplitAux (b ++ ' ' :: c) [] from by
    rw [pySplitAux]; simp [pyIsSpace]]
  rw [if_neg (by simpa using ha), List.reverse_reverse]
  rw [pySplitAux_nonspace b _ [] hbs, List.append_nil]
  rw [show pySplitAux (' ' :: c) b.reverse =
      if b.reverse = [] then pySplitAux c []
      else b.reverse.reverse :: pySplitAux c [] from by
    rw [pySplitAux]; simp [pyIsSpace]]
  rw [if_neg (by simpa using hb), List.reverse_reverse]
  rw [show pySplitAux c [] = pySplitAux (c ++ []) [] from by rw [List.append_nil]]
  rw [pySplitAux_nonspace c [] [] hcs, List.append_nil]
  rw [pySplitAux, if_neg (by simpa using hc), List.reverse_reverse]

/-! ## Helper lemmas about whole layout lines -/

theorem lstrip_cons_nonspace (x : Char) (l : List Char) (h : pyIsSpace x = false) :
    lstrip (x :: l) = x :: l := by
  unfold lstrip
  rw [List.dropWhile_cons, if_neg (by simp [h])]

theorem line_facts (a b c : List Char)
    (hga : goodToken a) (hgb : goodToken b) (hgc : goodToken c) :
    keepLine (a ++ ' ' :: (b ++ ' ' :: c)) = true ∧
    lineTokens (a ++ ' ' :: (b ++ ' ' :: c)) = [a, b, c] := by
  obtain ⟨hane, has⟩ := hga
  obtain ⟨hbne, hbs⟩ := hgb
  obtain ⟨hcne, hcs⟩ := hgc
  cases a with
  | nil => exact absurd rfl hane
  | cons x a' =>
    have hx := has x (List.mem_cons_self _ _)
    have hstrip : lstrip ((x :: a') ++ ' ' :: (b ++ ' ' :: c)) =
        (x :: a') ++ ' ' :: (b ++ ' ' :: c) := by
      rw [List.cons_append]
      exact lstrip_cons_nonspace x _ hx.1
    have hall : ∀ ch ∈ (x :: a') ++ ' ' :: (b ++ ' ' :: c), (ch != '#') = true := by
      intro ch hch
      rw [bne_iff_ne]
      rcases List.mem_append.mp hch with h1 | h1
      · exact (has ch h1).2
      · rcases List.mem_cons.mp h1 with rfl | h2
        · decide
        · rcases List.mem_append.mp h2 with h3 | h3
          · exact (hbs ch h3).2
          · rcases List.mem_cons.mp h3 with rfl | h4
            · decide
            · exact (hcs ch h4).2
    constructor
    · unfold keepLine isCommentLine
      rw [hstrip]
      have hxh : x ≠ '#' := hx.2
      simp [hxh]
    · unfold lineTokens beforeHash
      rw [hstrip, takeWhile_all _ _ hall, List.cons_append]
      exact pySplit_three (x :: a') b c (by simp)
        (fun ch hch => (has ch hch).1) hbne (fun ch hch => (hbs ch hch).1)
        hcne (fun ch hch => (hcs ch hch).1)

theorem renderLine_no_nl (f : List Char × List Char × List Char)
    (hoff : goodToken f.1) (hname : goodToken f.2.1) (hty : goodToken f.2.2) :
    '\n' ∉ renderLine f := by
  intro hmem
  unfold renderLine at hmem
  rcases List.mem_append.mp hmem with h1 | h1
  · exact absurd (hoff.2 '\n' h1).1 (by decide)
  · rcases List.mem_cons.mp h1 with h2 | h2
    · exact absurd h2 (by decide)
    · rcases List.mem_append.mp h2 with h3 | h3
      · exact absurd (hname.2 '\n' h3).1 (by decide)
      · rcases List.mem_cons.mp h3 with h4 | h4
        · exact absurd h4 (by decide)
        · exact absurd (hty.2 '\n' h4).1 (by decide)

theorem entryOfLine_render (f : List Char × List Char × List Char)
    (hoff : goodToken f.1) (hname : goodToken f.2.1) (hty : goodToken f.2.2) :
    entryOfLine (renderLine f) = some (f.2.1, (f.1, f.2.2)) := by
  obtain ⟨hk, ht⟩ := line_facts f.1 f.2.1 f.2.2 hoff hname hty
  unfold entryOfLine
  unfold renderLine
  rw [hk, ht]
  rfl

theorem digitToken_good (t : List Char) (h : digitToken t) : goodToken t := by
  obtain ⟨hne, hd⟩ := h
  refine ⟨hne, fun c hc => ?_⟩
  have hdig := hd c hc
  constructor
  · by_contra hs
    rw [Bool.not_eq_false] at hs
    simp only [pyIsSpace, Bool.or_eq_true, beq_iff_eq] at hs
    rcases hs with ((((h1 | h1) | h1) | h1) | h1) | h1 <;> subst h1 <;>
      simp [Char.isDigit] at hdig
  · rintro rfl
    simp [Char.isDigit] at hdig

theorem processLine_congr (acc : Layout) (l1 l2 : List Char)
    (hk : keepLine l1 = keepLine l2) (ht : lineTokens l1 = lineTokens l2) :
    processLine acc l1 = processLine acc l2 := by
  unfold processLine
  rw [hk, ht]

theorem filterMap_entry_render (fs : List (List Char × List Char × List Char))
    (hoff : ∀ f ∈ fs, digitToken f.1)
    (hname : ∀ f ∈ fs, goodToken f.2.1)
    (hty : ∀ f ∈ fs, goodToken f.2.2) :
    (fs.map renderLine).filterMap entryOfLine =
      fs.map (fun g => (g.2.1, (g.1, g.2.2))) := by
  induction fs with
  | nil => rfl
  | cons g fs ih =>
    rw [List.map_cons, List.map_cons, List.filterMap_cons,
      entryOfLine_render g (digitToken_good _ (hoff g (List.mem_cons_self _ _)))
        (hname g (List.mem_cons_self _ _)) (hty g (List.mem_cons_self _ _))]
    rw [ih (fun x hx => hoff x (List.mem_cons_of_mem _ hx))
        (fun x hx => hname x (List.mem_cons_of_mem _ hx))
        (fun x hx => hty x (List.mem_cons_of_mem _ hx))]

/-! ## The claims -/

set_option maxRecDepth 10000 in
/-- C1: parsing the four-line layout text `4 ID INT` / `6 NAME STRING[6]` /
`12.0 testbool1 BOOL` / `13 testReal REAL` yields a 4-entry Layout in exactly
that order, and the stored offset tokens denote the offsets 4, 6,
(12, bit 0), 13 while the stored type tokens denote Int16, String(6), Bool,
Real32 respectively. -/
theorem c1_example_layout_parse :
    parse_specification
        (chars "4 ID INT\n6 NAME STRING[6]\n12.0 testbool1 BOOL\n13 testReal REAL") =
      Except.ok
        [(chars "ID", (chars "4", chars "INT")),
         (chars "NAME", (chars "6", chars "STRING[6]")),
         (chars "testbool1", (chars "12.0", chars "BOOL")),
         (chars "testReal", (chars "13", chars "REAL"))] ∧
    (entriesOf
          (chars "4 ID INT\n6 NAME STRING[6]\n12.0 testbool1 BOOL\n13 testReal REAL")).map
        (fun e => (interpretOffsetToken e.2.1, interpretTypeToken e.2.2)) =
      [(some (4, none), some DataType.Int16),
       (some (6, none), some (DataType.String 6)),
       (some (12, some 0), some DataType.Bool),
       (some (13, none), some DataType.Real32)] := by
  constructor
  · decide
  · decide

/-- C2 (amended): any layout text containing a kept (non-blank, non-comment)
line whose pre-`'#'` token count differs from 3 fails the whole parse with
the unpack error; however the error carries only the token count, not the
offending line, and a 3-token line with an unknown type token or a
non-numeric offset token is accepted verbatim (see the counterexample). -/
theorem c2_token_count_failure (text : List Char)
    (h : ∃ line ∈ splitNl text, keepLine line = true ∧ (lineTokens line).length ≠ 3) :
    exceptIsOk (parse_specification text) = false :=
  parseLines_err (splitNl text) [] h

theorem c2_token_count_failure_witness :
    exceptIsOk (parse_specification (chars "4 ID INT\nonly two")) = false :=
  c2_token_count_failure _ ⟨chars "only two", by decide, by decide, by decide⟩

/-- C2 counterexample: the line `x y FOO` has a non-numeric offset token and
an unknown type token, yet `parse_specification` silently accepts it. -/
theorem c2_malformed_line_accepted :
    parse_specification (chars "x y FOO") =
      Except.ok [(chars "y", (chars "x", chars "FOO"))] ∧
    interpretOffsetToken (chars "x") = none ∧
    interpretTypeToken (chars "FOO") = none := by
  refine ⟨by decide, by decide, by decide⟩

/-- C3: every layout text containing the two-token line `abc badtoken` fails
the whole parse (a `ParseError` value, the embedded `ValueError`), and no
partial Layout is ever returned to the caller. -/
theorem c3_abc_badtoken_fails (text : List Char)
    (h : chars "abc badtoken" ∈ splitNl text) :
    exceptIsOk (parse_specification text) = false ∧
    ∀ m : Layout, parse_specification text ≠ Except.ok m := by
  have hfail : exceptIsOk (parse_specification text) = false :=
    parseLines_err (splitNl text) [] ⟨chars "abc badtoken", h, by decide, by decide⟩
  refine ⟨hfail, fun m hm => ?_⟩
  rw [hm] at hfail
  simp [exceptIsOk] at hfail

theorem c3_abc_badtoken_fails_witness :
    exceptIsOk (parse_specification (chars "4 ID INT\nabc badtoken")) = false :=
  (c3_abc_badtoken_fails _ (by decide)).1

/-- C4 (amended): `parse_specification` skips exactly the empty lines and the
lines whose first non-whitespace character is `'#'`: the parse equals the
parse of the kept lines alone, so each skipped line contributes no field
entry and never causes the parse to fail.  A nonempty line consisting only
of whitespace is NOT skipped (see the counterexample). -/
theorem c4_skipped_lines (text : List Char) :
    parse_specification text = parseLines [] ((splitNl text).filter keepLine) :=
  parseLines_filter (splitNl text) []

/-- C4 counterexample: a line consisting only of whitespace is not skipped;
it tokenizes to zero tokens and fails the whole parse with an unpack error. -/
theorem c4_whitespace_line_fails :
    parse_specification (chars "4 ID INT\n \n6 NAME REAL") =
      Except.error (ParseError.notEnoughValues 3 0) := by
  decide

/-- C5: for every well-formed layout text whose field names are distinct, the
returned Layout lists the fields in exactly the order in which their lines
appear in the input text. -/
theorem c5_insertion_order (text : List Char) (hwf : wellFormed text)
    (hnd : (keysOf (entriesOf text)).Nodup) :
    parse_specification text = Except.ok (entriesOf text) := by
  have h1 := parseLines_ok (splitNl text) [] hwf
  have h2 : odFold [] ((splitNl text).filterMap entryOfLine) = entriesOf text := by
    have h3 := odFold_fresh ((splitNl text).filterMap entryOfLine) [] hnd
      (fun k _ hmem => by simp [keysOf] at hmem)
    rw [h3]
    rfl
  unfold parse_specification
  rw [h1, h2]

set_option maxRecDepth 10000 in
theorem c5_insertion_order_witness :
    parse_specification (chars "4 ID INT\n6 NAME STRING[6]\n13 testReal REAL") =
      Except.ok
        [(chars "ID", (chars "4", chars "INT")),
         (chars "NAME", (chars "6", chars "STRING[6]")),
         (chars "testReal", (chars "13", chars "REAL"))] :=
  (c5_insertion_order _ (by decide) (by decide)).trans (congrArg Except.ok (by decide))

/-- C6: the parser validates neither offset monotonicity nor overlap: for
every assignment of numeric offset tokens to a list of fields — overlapping
and non-monotonic assignments included, since the offsets below are
universally quantified with no ordering constraint — the rendered layout
text parses successfully, keeping every field, in line order. -/
theorem c6_no_overlap_validation (fs : List (List Char × List Char × List Char))
    (hoff : ∀ f ∈ fs, digitToken f.1)
    (hname : ∀ f ∈ fs, goodToken f.2.1)
    (hty : ∀ f ∈ fs, goodToken f.2.2)
    (hnd : (fs.map (fun f => f.2.1)).Nodup) :
    parse_specification (renderText fs) =
      Except.ok (fs.map (fun f => (f.2.1, (f.1, f.2.2)))) := by
  rcases fs with _ | ⟨f, fs'⟩
  · decide
  · have hgoods : ∀ g ∈ f :: fs', goodToken g.1 :=
      fun g hg => digitToken_good _ (hoff g hg)
    have hnl : ∀ l ∈ (f :: fs').map renderLine, '\n' ∉ l := by
      intro l hl
      rcases List.mem_map.mp hl with ⟨g, hg, rfl⟩
      exact renderLine_no_nl g (hgoods g hg) (hname g hg) (hty g hg)
    have hsplit : splitNl (renderText (f :: fs')) = (f :: fs').map renderLine := by
      unfold renderText
      exact splitNl_joinNl _ (by simp) hnl
    have hwf3 : ∀ l ∈ (f :: fs').map renderLine,
        keepLine l = true → (lineTokens l).length = 3 := by
      intro l hl _
      rcases List.mem_map.mp hl with ⟨g, hg, rfl⟩
      obtain ⟨-, ht⟩ := line_facts g.1 g.2.1 g.2.2 (hgoods g hg) (hname g hg) (hty g hg)
      unfold renderLine
      rw [ht]
      rfl
    have hfm := filterMap_entry_render (f :: fs') hoff hname hty
    have hkeys : keysOf ((f :: fs').map (fun g => (g.2.1, (g.1, g.2.2)))) =
        (f :: fs').map (fun g => g.2.1) := by
      unfold keysOf
      rw [List.map_map]
      rfl
    unfold parse_specification
    rw [hsplit, parseLines_ok _ [] hwf3, hfm]
    rw [odFold_fresh _ [] (by rw [hkeys]; exact hnd)
      (fun k _ hmem => by simp [keysOf] at hmem)]
    rfl

theorem c6_no_overlap_validation_witness :
    parse_specification (chars "4 A INT\n4 B REAL") =
      Except.ok [(chars "A", (chars "4", chars "INT")),
        (chars "B", (chars "4", chars "REAL"))] := by
  have h := c6_no_overlap_validation
      [(chars "4", chars "A", chars "INT"), (chars "4", chars "B", chars "REAL")]
      (by decide) (by decide) (by decide) (by decide)
  have he : renderText
      [(chars "4", chars "A", chars "INT"), (chars "4", chars "B", chars "REAL")] =
      chars "4 A INT\n4 B REAL" := by decide
  rw [he] at h
  exact h.trans (congrArg Except.ok (by decide))

set_option maxRecDepth 100000 in
/-- C7: in the bytearray returned by `_init_standard_values` the string at
byte 100 follows the counted-string wire layout: byte 100 holds the
max-length byte 254, byte 101 the actual-length byte 37, and bytes 102
through 138 exactly the ASCII codes of the 37-character demo string. -/
theorem c7_counted_string_layout :
    _init_standard_values.get? 100 = some 254 ∧
    _init_standard_values.get? 101 = some 37 ∧
    (_init_standard_values.drop 102).take 37 =
      (chars "the brown fox jumps over the lazy dog").map Char.toNat := by
  refine ⟨by decide, by decide, by decide⟩

set_option maxRecDepth 100000 in
/-- C8: `_init_standard_values` allocates 1000 bytes but the returned buffer
has length 976: the four WORD slice assignments each replace a 4-byte slice
by 2 bytes and the four DWORD slice assignments each replace an 8-byte slice
by 4 bytes, shrinking the buffer by 24 bytes in total. -/
theorem c8_buffer_shrinks_to_976 :
    _init_standard_values.length = 976 ∧
    (List.replicate 1000 0 : List Nat).length = 1000 := by
  refine ⟨by decide, by decide⟩

/-- C9: for every non-blank, non-comment line, every character from the
first `'#'` onward is ignored before tokenisation: appending `'#'` plus an
arbitrary trailer to a hash-free line leaves the parser's treatment of the
line unchanged. -/
theorem c9_inline_comment_stripped (acc : Layout) (pre post : List Char)
    (hnh : '#' ∉ pre) (hns : lstrip pre ≠ []) :
    processLine acc (pre ++ '#' :: post) = processLine acc pre := by
  obtain ⟨x, rest, hx⟩ : ∃ x rest, lstrip pre = x :: rest := by
    cases h : lstrip pre with
    | nil => exact absurd h hns
    | cons x rest => exact ⟨x, rest, rfl⟩
  have hx_mem : x ∈ lstrip pre := by
    rw [hx]
    exact List.mem_cons_self _ _
  have hxpre : x ∈ pre := mem_of_mem_dropWhile pyIsSpace pre x hx_mem
  have hxh : x ≠ '#' := fun hc => hnh (hc ▸ hxpre)
  have hnh' : '#' ∉ lstrip pre :=
    fun hc => hnh (mem_of_mem_dropWhile pyIsSpace pre '#' hc)
  have hall : ∀ ch ∈ x :: rest, (ch != '#') = true := by
    intro ch hch
    rw [bne_iff_ne]
    rintro rfl
    apply hnh'
    rw [hx]
    exact hch
  have hpre_ne : pre ≠ [] := by
    intro hc
    rw [hc] at hns
    exact hns rfl
  have hstrip : lstrip (pre ++ '#' :: post) = lstrip pre ++ '#' :: post :=
    dropWhile_append_ne_nil pyIsSpace pre ('#' :: post) hns
  apply processLine_congr
  · unfold keepLine isCommentLine
    rw [hstrip, hx]
    have h1 : (pre ++ '#' :: post).isEmpty = false := by
      cases pre with
      | nil => exact absurd rfl hpre_ne
      | cons p0 pre' => rfl
    have h2 : pre.isEmpty = false := by
      cases pre with
      | nil => exact absurd rfl hpre_ne
      | cons p0 pre' => rfl
    rw [h1, h2, List.cons_append]
    simp [hxh]
  · unfold lineTokens beforeHash
    rw [hstrip, hx]
    rw [takeWhile_append_stop _ (x :: rest) '#' post hall (by simp)]
    rw [takeWhile_all _ (x :: rest) hall]

theorem c9_inline_comment_stripped_witness :
    processLine [] (chars "4 ID INT # note") =
      Except.ok [(chars "ID", (chars "4", chars "INT"))] :=
  (c9_inline_comment_stripped [] (chars "4 ID INT ") (chars " note")
    (by decide) (by decide)).trans (by decide)

/-- C10: for every well-formed layout text the returned Layout has exactly
one entry per field name, the keys appear at the position of each name's
first occurrence (keys = first-occurrence deduplication of the declared
names), and each name maps to the (offset, type) tokens of its LAST
declaring line. -/
theorem c10_duplicate_name_semantics (text : List Char) (hwf : wellFormed text) :
    parse_specification text = Except.ok (odFold [] (entriesOf text)) ∧
    keysOf (odFold [] (entriesOf text)) = dedupKeepFirst (keysOf (entriesOf text)) ∧
    (keysOf (odFold [] (entriesOf text))).Nodup ∧
    ∀ n, lookupA (odFold [] (entriesOf text)) n = lastVal (entriesOf text) n := by
  refine ⟨parseLines_ok (splitNl text) [] hwf, ?_, ?_, ?_⟩
  · rw [keysOf_odFold]
    rfl
  · rw [keysOf_odFold]
    exact foldl_insertNew_nodup _ [] List.nodup_nil
  · intro n
    rw [lookupA_odFold]
    exact oOr_none_right _

set_option maxRecDepth 10000 in
theorem c10_duplicate_name_semantics_witness :
    parse_specification (chars "4 A INT\n6 A REAL\n8 B BOOL") =
      Except.ok [(chars "A", (chars "6", chars "REAL")),
        (chars "B", (chars "8", chars "BOOL"))] :=
  ((c10_duplicate_name_semantics _ (by decide)).1).trans (congrArg Except.ok (by decide))

end Snap7
